import Mathlib

/-!
Verification development for the moedelo-demo ingestion and retrieval
pipeline. Text is modelled as a list of characters. The chunker, the
collection management, the ingestion loops and the retrieval assembly are
translated from the Python sources; the loop of the chunker is given an
explicit fuel argument, so that an execution that does not terminate is
represented by the value none.
-/

namespace Moedelo

/-! ## Chunker, from src/ingest_qdrant_cloud.py (split_text, lines 56 to 77) -/

/-- Configured chunk size, line 20 of src/ingest_qdrant_cloud.py. -/
def CHUNK_SIZE : Nat := 800

/-- Configured chunk overlap, line 21 of src/ingest_qdrant_cloud.py. -/
def CHUNK_OVERLAP : Nat := 100

/-- Embedding dimension, line 18 of src/ingest_qdrant_cloud.py. -/
def EMBEDDING_DIM : Nat := 1536

/-- Whitespace as recognised by the Python str.split and str.strip methods
(ASCII fragment). -/
def isPyWhite (c : Char) : Bool :=
  c = ' ' || c = '\t' || c = '\n' || c = '\r' || c = '\x0b' || c = '\x0c'

/-- Helper for pySplit: walks the text keeping the reversed current word in
the accumulator, emitting maximal runs of non-whitespace characters. -/
def pySplitAux : List Char → List Char → List (List Char)
  | [], acc => if acc.isEmpty then [] else [acc.reverse]
  | c :: rest, acc =>
    if isPyWhite c then
      if acc.isEmpty then pySplitAux rest []
      else acc.reverse :: pySplitAux rest []
    else pySplitAux rest (c :: acc)

/-- Python text.split with no separator: the list of maximal whitespace-free
words. -/
def pySplit (l : List Char) : List (List Char) := pySplitAux l []

/-- Python text.strip: removes leading and trailing whitespace. -/
def pyStrip (l : List Char) : List Char :=
  ((l.dropWhile isPyWhite).reverse.dropWhile isPyWhite).reverse

/-- Line 57 of src/ingest_qdrant_cloud.py: whitespace runs collapse to a
single space and the ends are trimmed. -/
def normalize (l : List Char) : List Char :=
  List.intercalate [' '] (pySplit (pyStrip l))

/-- Python slice text[a:b] for 0 ≤ a ≤ b. -/
def pySlice (l : List Char) (a b : Nat) : List Char :=
  (l.drop a).take (b - a)

/-- Python chunk.rfind of a single space: index of the last space, none when
absent (Python returns -1). -/
def rfindSpace : List Char → Option Nat
  | [] => none
  | c :: rest =>
    match rfindSpace rest with
    | some i => some (i + 1)
    | none => if c = ' ' then some 0 else none

/-- One iteration of the while loop of split_text, lines 64 to 75: returns
the emitted chunk, the adjusted end, and the next cursor value
max (end - overlap) end. -/
def splitStep (size overlap : Nat) (t : List Char) (start : Nat) :
    List Char × Nat × Nat :=
  let end0 := start + size
  let chunk0 := pySlice t start end0
  let p : List Char × Nat :=
    if end0 < t.length then
      match rfindSpace chunk0 with
      | some i => (chunk0.take i, start + i)
      | none => (chunk0, end0)
    else (chunk0, end0)
  (p.1, p.2, max (p.2 - overlap) p.2)

/-- The while loop of split_text with fuel; records for every emitted chunk
also the cursor value at which it was emitted. Fuel exhaustion yields
none. -/
def splitLoop (size overlap : Nat) (t : List Char) :
    Nat → Nat → Option (List (Nat × List Char))
  | 0, _ => none
  | fuel + 1, start =>
    if start < t.length then
      let s := splitStep size overlap t start
      match splitLoop size overlap t fuel s.2.2 with
      | some rest => some ((start, s.1) :: rest)
      | none => none
    else some []

/-- split_text generalised over size and overlap, instrumented with the
start offset of each chunk inside the normalized text. -/
def splitEntriesGen (size overlap fuel : Nat) (text : List Char) :
    Option (List (Nat × List Char)) :=
  let t := normalize text
  if t.isEmpty then some [] else splitLoop size overlap t fuel 0

/-- split_text generalised over size and overlap: the list of chunks. -/
def splitTextGen (size overlap fuel : Nat) (text : List Char) :
    Option (List (List Char)) :=
  (splitEntriesGen size overlap fuel text).map (List.map Prod.snd)

/-- split_text at the configured parameters, lines 56 to 77 of
src/ingest_qdrant_cloud.py. -/
def splitTextFuel (fuel : Nat) (text : List Char) : Option (List (List Char)) :=
  splitTextGen CHUNK_SIZE CHUNK_OVERLAP fuel text

/-- End offset of an instrumented chunk entry. -/
def entryEnd (e : Nat × List Char) : Nat := e.1 + e.2.length

/-- Number of characters shared by two consecutive chunk entries: how far
the end of the first reaches past the start of the second. -/
def consecutiveOverlap (e1 e2 : Nat × List Char) : Nat := entryEnd e1 - e2.1

/-! ## Structural lemmas about the split loop -/

lemma rfindSpace_lt_length {l : List Char} {i : Nat} (h : rfindSpace l = some i) :
    i < l.length := by
  induction l generalizing i with
  | nil => simp [rfindSpace] at h
  | cons c rest ih =>
    simp only [rfindSpace] at h
    cases hr : rfindSpace rest with
    | some j =>
      rw [hr] at h
      cases h
      simpa using Nat.succ_lt_succ (ih hr)
    | none =>
      rw [hr] at h
      by_cases hc : c = ' '
      · rw [if_pos hc] at h
        cases h
        simp
      · rw [if_neg hc] at h
        cases h

lemma splitStep_cases (size overlap : Nat) (t : List Char) (s : Nat) :
    (¬ s + size < t.length ∧
      splitStep size overlap t s = ((t.drop s).take size, s + size, s + size)) ∨
    (s + size < t.length ∧ rfindSpace ((t.drop s).take size) = none ∧
      splitStep size overlap t s = ((t.drop s).take size, s + size, s + size)) ∨
    (∃ i, s + size < t.length ∧ rfindSpace ((t.drop s).take size) = some i ∧
      splitStep size overlap t s =
        (((t.drop s).take size).take i, s + i, s + i)) := by
  have hba : s + size - s = size := by omega
  by_cases h1 : s + size < t.length
  · cases hr : rfindSpace ((t.drop s).take size) with
    | none =>
      refine Or.inr (Or.inl ⟨h1, rfl, ?_⟩)
      simp only [splitStep, pySlice, hba, if_pos h1, hr]
      simp [Nat.max_eq_right (Nat.sub_le _ _)]
    | some i =>
      refine Or.inr (Or.inr ⟨i, h1, rfl, ?_⟩)
      simp only [splitStep, pySlice, hba, if_pos h1, hr]
      simp [Nat.max_eq_right (Nat.sub_le _ _)]
  · refine Or.inl ⟨h1, ?_⟩
    simp only [splitStep, pySlice, hba, if_neg h1]
    simp [Nat.max_eq_right (Nat.sub_le _ _)]

lemma splitLoop_succ_lt {size overlap : Nat} {t : List Char} {fuel s : Nat}
    (h : s < t.length) :
    splitLoop size overlap t (fuel + 1) s =
      match splitLoop size overlap t fuel (splitStep size overlap t s).2.2 with
      | some rest => some ((s, (splitStep size overlap t s).1) :: rest)
      | none => none := by
  simp only [splitLoop, if_pos h]

lemma splitLoop_succ_ge {size overlap : Nat} {t : List Char} {fuel s : Nat}
    (h : ¬ s < t.length) :
    splitLoop size overlap t (fuel + 1) s = some [] := by
  simp only [splitLoop, if_neg h]

lemma splitLoop_terminal {size overlap : Nat} {t : List Char} {fuel s : Nat}
    {R : List (Nat × List Char)} (h : splitLoop size overlap t fuel s = some R)
    (hs : t.length ≤ s) : R = [] := by
  cases fuel with
  | zero => simp [splitLoop] at h
  | succ f =>
    rw [splitLoop_succ_ge (by omega)] at h
    cases h
    rfl

lemma splitLoop_fix {size overlap : Nat} {t : List Char} {s : Nat}
    (hs : s < t.length) (hfix : (splitStep size overlap t s).2.2 = s) :
    ∀ fuel, splitLoop size overlap t fuel s = none := by
  intro fuel
  induction fuel with
  | zero => rfl
  | succ f ih => rw [splitLoop_succ_lt hs, hfix, ih]

/-- Invariant of a terminating run of the split loop started at cursor s:
the emitted entries tile the suffix of the text from offset s to its end,
each chunk being a nonempty prefix of the text at its start offset. -/
inductive Covers (t : List Char) : Nat → List (Nat × List Char) → Prop
  | last (s : Nat) (c : List Char) (hc : c = t.drop s) (hne : c ≠ []) :
      Covers t s [(s, c)]
  | cons (s : Nat) (c : List Char) (rest : List (Nat × List Char))
      (hpre : c = (t.drop s).take c.length) (hne : c ≠ [])
      (hrest : Covers t (s + c.length) rest) :
      Covers t s ((s, c) :: rest)

lemma Covers.head_shape {t : List Char} {s : Nat} {L : List (Nat × List Char)}
    (h : Covers t s L) : ∃ c L2, L = (s, c) :: L2 := by
  cases h with
  | last s c hc hne => exact ⟨c, [], rfl⟩
  | cons s c rest hpre hne hrest => exact ⟨c, rest, rfl⟩

lemma Covers.start_le {t : List Char} {s : Nat} {L : List (Nat × List Char)}
    (h : Covers t s L) : ∀ e ∈ L, s ≤ e.1 := by
  induction h with
  | last s c hc hne =>
    intro e he
    simp at he
    subst he
    exact Nat.le_refl s
  | cons s c rest hpre hne hrest ih =>
    intro e he
    rcases List.mem_cons.mp he with h1 | h2
    · subst h1
      exact Nat.le_refl s
    · exact Nat.le_trans (Nat.le_add_right s c.length) (ih e h2)

lemma Covers.snd_ne_nil {t : List Char} {s : Nat} {L : List (Nat × List Char)}
    (h : Covers t s L) : ∀ e ∈ L, e.2 ≠ [] := by
  induction h with
  | last s c hc hne =>
    intro e he
    simp at he
    subst he
    exact hne
  | cons s c rest hpre hne hrest ih =>
    intro e he
    rcases List.mem_cons.mp he with h1 | h2
    · subst h1
      exact hne
    · exact ih e h2

lemma Covers.pairwise_lt {t : List Char} {s : Nat} {L : List (Nat × List Char)}
    (h : Covers t s L) : (L.map Prod.fst).Pairwise (· < ·) := by
  induction h with
  | last s c hc hne => simp
  | cons s c rest hpre hne hrest ih =>
    simp only [List.map_cons, List.pairwise_cons]
    refine ⟨?_, ih⟩
    intro a ha
    rcases List.mem_map.mp ha with ⟨e, he, rfl⟩
    have h1 := hrest.start_le e he
    have h2 : 0 < c.length := List.length_pos.mpr hne
    omega

lemma Covers.flatten_eq {t : List Char} {s : Nat} {L : List (Nat × List Char)}
    (h : Covers t s L) : (L.map Prod.snd).flatten = t.drop s := by
  induction h with
  | last s c hc hne => simp [hc]
  | cons s c rest hpre hne hrest ih =>
    simp only [List.map_cons, List.flatten_cons, ih]
    have hdd : t.drop (s + c.length) = (t.drop s).drop c.length := by
      rw [List.drop_drop]
    rw [hdd]
    calc c ++ (t.drop s).drop c.length
        = (t.drop s).take c.length ++ (t.drop s).drop c.length := by rw [← hpre]
      _ = t.drop s := List.take_append_drop _ _

lemma Covers.last_end {t : List Char} {s : Nat} {L : List (Nat × List Char)}
    (h : Covers t s L) : ∀ e, L.getLast? = some e → entryEnd e = t.length := by
  induction h with
  | last s c hc hne =>
    intro e he
    simp at he
    subst he
    have hlt : s < t.length := by
      by_contra hge
      have : t.drop s = [] := List.drop_eq_nil_of_le (by omega)
      exact hne (hc.trans this)
    simp only [entryEnd, hc, List.length_drop]
    omega
  | cons s c rest hpre hne hrest ih =>
    intro e he
    rcases hrest.head_shape with ⟨c2, L2, rfl⟩
    rw [List.getLast?_cons_cons] at he
    exact ih e he

lemma Covers.chain_adj {t : List Char} {s : Nat} {L : List (Nat × List Char)}
    (h : Covers t s L) : L.Chain' (fun a b => b.1 = entryEnd a) := by
  induction h with
  | last s c hc hne => simp
  | cons s c rest hpre hne hrest ih =>
    rcases hrest.head_shape with ⟨c2, L2, rfl⟩
    exact List.chain'_cons.mpr ⟨rfl, ih⟩

lemma splitLoop_covers {size overlap : Nat} (hsize : 0 < size) (t : List Char) :
    ∀ fuel s L, splitLoop size overlap t fuel s = some L → s < t.length →
      Covers t s L := by
  intro fuel
  induction fuel with
  | zero =>
    intro s L h _
    simp [splitLoop] at h
  | succ f ih =>
    intro s L h hs
    rw [splitLoop_succ_lt hs] at h
    cases hrec : splitLoop size overlap t f (splitStep size overlap t s).2.2 with
    | none =>
      rw [hrec] at h
      cases h
    | some rest =>
      rw [hrec] at h
      cases h
      have hdlen : (t.drop s).length = t.length - s := List.length_drop s t
      have hdne : t.drop s ≠ [] := by
        apply List.ne_nil_of_length_pos
        omega
      rcases splitStep_cases size overlap t s with
        ⟨hge, hst⟩ | ⟨hlt2, hrf, hst⟩ | ⟨i, hlt2, hrf, hst⟩
      · -- final window: the slice reaches the end of the text
        have hnext : (splitStep size overlap t s).2.2 = s + size := by rw [hst]
        have hchunk : (splitStep size overlap t s).1 = (t.drop s).take size := by
          rw [hst]
        rw [hnext] at hrec
        rw [hchunk]
        have hrest0 : rest = [] := splitLoop_terminal hrec (by omega)
        subst hrest0
        have hc : (t.drop s).take size = t.drop s :=
          List.take_of_length_le (by omega)
        exact Covers.last s _ hc (by rw [hc]; exact hdne)
      · -- interior window without a space: kept at full length
        have hnext : (splitStep size overlap t s).2.2 = s + size := by rw [hst]
        have hchunk : (splitStep size overlap t s).1 = (t.drop s).take size := by
          rw [hst]
        rw [hnext] at hrec
        rw [hchunk]
        have hclen : ((t.drop s).take size).length = size := by
          rw [List.length_take, hdlen]
          omega
        have hcov : Covers t (s + size) rest := ih _ _ hrec (by omega)
        refine Covers.cons s _ rest ?_ ?_ ?_
        · rw [hclen]
        · apply List.ne_nil_of_length_pos
          omega
        · rw [hclen]
          exact hcov
      · -- interior window trimmed at its last space
        have hilt : i < ((t.drop s).take size).length := rfindSpace_lt_length hrf
        have hclen0 : ((t.drop s).take size).length = size := by
          rw [List.length_take, hdlen]
          omega
        rcases Nat.eq_zero_or_pos i with hi0 | hipos
        · -- the trim does not advance the cursor: the loop cannot return
          subst hi0
          have hfix : (splitStep size overlap t s).2.2 = s := by
            rw [hst]
            simp
          rw [hfix, splitLoop_fix hs hfix f] at hrec
          cases hrec
        · have hnext : (splitStep size overlap t s).2.2 = s + i := by rw [hst]
          have hchunk : (splitStep size overlap t s).1 =
              ((t.drop s).take size).take i := by rw [hst]
          rw [hnext] at hrec
          rw [hchunk]
          have hclen : (((t.drop s).take size).take i).length = i := by
            rw [List.length_take, hclen0]
            omega
          have hcov : Covers t (s + i) rest := ih _ _ hrec (by omega)
          refine Covers.cons s _ rest ?_ ?_ ?_
          · rw [hclen, List.take_take]
            congr 1
            omega
          · apply List.ne_nil_of_length_pos
            omega
          · rw [hclen]
            exact hcov

lemma splitLoop_len_le {size overlap : Nat} {t : List Char} :
    ∀ fuel s L, splitLoop size overlap t fuel s = some L →
      ∀ e ∈ L, e.2.length ≤ size := by
  intro fuel
  induction fuel with
  | zero =>
    intro s L h
    simp [splitLoop] at h
  | succ f ih =>
    intro s L h e he
    by_cases hs : s < t.length
    · rw [splitLoop_succ_lt hs] at h
      cases hrec : splitLoop size overlap t f (splitStep size overlap t s).2.2 with
      | none =>
        rw [hrec] at h
        cases h
      | some rest =>
        rw [hrec] at h
        cases h
        rcases List.mem_cons.mp he with h1 | h2
        · subst h1
          rcases splitStep_cases size overlap t s with
            ⟨_, hst⟩ | ⟨_, _, hst⟩ | ⟨i, _, _, hst⟩ <;>
            · rw [hst]
              simp [List.length_take]
        · exact ih _ rest hrec e h2
    · rw [splitLoop_succ_ge hs] at h
      cases h
      simp at he

lemma normalize_len_pos {text : List Char} (hn : ¬ (normalize text).isEmpty = true) :
    0 < (normalize text).length := by
  rcases hq : normalize text with _ | ⟨c, r⟩
  · rw [hq] at hn
    simp at hn
  · simp

/-! ## Claim theorems about the chunker -/

/-- C2: for every text and every configuration with size > overlap ≥ 0,
whenever split_text returns, every chunk has length at most size, the
start offsets of the chunks are strictly increasing, and the end offset of
the last chunk equals the length of the normalized text. -/
theorem splitText_structure (size overlap fuel : Nat) (text : List Char)
    (hov : overlap < size) (L : List (Nat × List Char))
    (h : splitEntriesGen size overlap fuel text = some L) :
    (∀ e ∈ L, e.2.length ≤ size) ∧
    (L.map Prod.fst).Pairwise (· < ·) ∧
    (∀ e, L.getLast? = some e → entryEnd e = (normalize text).length) := by
  have hsize : 0 < size := Nat.lt_of_le_of_lt (Nat.zero_le _) hov
  simp only [splitEntriesGen] at h
  by_cases hn : (normalize text).isEmpty
  · rw [if_pos hn] at h
    cases h
    exact ⟨by simp, by simp, by simp⟩
  · rw [if_neg hn] at h
    have hcov := splitLoop_covers hsize (normalize text) fuel 0 L h
      (normalize_len_pos hn)
    exact ⟨splitLoop_len_le fuel 0 L h, hcov.pairwise_lt,
      fun e he => hcov.last_end e he⟩

/-- Witness for splitText_structure at a concrete two-character text. -/
theorem splitText_structure_witness :
    (∀ e ∈ [((0 : Nat), ['a', 'b'])], e.2.length ≤ 800) ∧
    (([((0 : Nat), ['a', 'b'])].map Prod.fst).Pairwise (· < ·)) ∧
    (∀ e, [((0 : Nat), ['a', 'b'])].getLast? = some e →
      entryEnd e = (normalize ['a', 'b']).length) :=
  splitText_structure 800 100 2 ['a', 'b'] (by decide) [(0, ['a', 'b'])] (by decide)

/-- C4: every chunk returned by split_text is non-empty, and an input that
normalizes to the empty string yields zero chunks. -/
theorem splitText_nonempty_or_empty (fuel : Nat) (text : List Char) :
    (∀ L, splitTextFuel fuel text = some L → ∀ c ∈ L, c ≠ []) ∧
    (normalize text = [] → splitTextFuel fuel text = some []) := by
  constructor
  · intro L h c hc
    simp only [splitTextFuel, splitTextGen] at h
    cases hE : splitEntriesGen CHUNK_SIZE CHUNK_OVERLAP fuel text with
    | none =>
      rw [hE] at h
      cases h
    | some E =>
      rw [hE] at h
      cases h
      rcases List.mem_map.mp hc with ⟨e, he, rfl⟩
      simp only [splitEntriesGen] at hE
      by_cases hn : (normalize text).isEmpty
      · rw [if_pos hn] at hE
        cases hE
        simp at he
      · rw [if_neg hn] at hE
        exact (splitLoop_covers (by decide) (normalize text) fuel 0 E hE
          (normalize_len_pos hn)).snd_ne_nil e he
  · intro hn
    simp only [splitTextFuel, splitTextGen, splitEntriesGen, hn]
    simp

/-- Witness for splitText_nonempty_or_empty: a two-letter text gives one
non-empty chunk, an all-whitespace text gives zero chunks. -/
theorem splitText_nonempty_witness :
    (∀ c ∈ [['h', 'i']], c ≠ ([] : List Char)) ∧
    splitTextFuel 5 [' '] = some [] :=
  ⟨(splitText_nonempty_or_empty 5 ['h', 'i']).1 [['h', 'i']] (by decide),
   (splitText_nonempty_or_empty 5 [' ']).2 (by decide)⟩

/-- C10: whenever split_text returns, the concatenation of the chunks in
emission order is exactly the normalized text, and every chunk starts at
the end offset of the previous one, so consecutive chunks share zero
characters and no character is lost. -/
theorem splitText_concat_exact (fuel : Nat) (text : List Char) :
    (∀ L, splitTextFuel fuel text = some L → L.flatten = normalize text) ∧
    (∀ E, splitEntriesGen CHUNK_SIZE CHUNK_OVERLAP fuel text = some E →
      E.Chain' (fun a b => b.1 = entryEnd a)) := by
  constructor
  · intro L h
    simp only [splitTextFuel, splitTextGen] at h
    cases hE : splitEntriesGen CHUNK_SIZE CHUNK_OVERLAP fuel text with
    | none =>
      rw [hE] at h
      cases h
    | some E =>
      rw [hE] at h
      cases h
      simp only [splitEntriesGen] at hE
      by_cases hn : (normalize text).isEmpty
      · rw [if_pos hn] at hE
        cases hE
        simp only [List.isEmpty_iff] at hn
        simp [hn]
      · rw [if_neg hn] at hE
        have hcov := splitLoop_covers (by decide) (normalize text) fuel 0 E hE
          (normalize_len_pos hn)
        have := hcov.flatten_eq
        rwa [List.drop_zero] at this
  · intro E hE
    simp only [splitEntriesGen] at hE
    by_cases hn : (normalize text).isEmpty
    · rw [if_pos hn] at hE
      cases hE
      simp
    · rw [if_neg hn] at hE
      exact (splitLoop_covers (by decide) (normalize text) fuel 0 E hE
        (normalize_len_pos hn)).chain_adj

/-- Witness for splitText_concat_exact at a concrete three-character text. -/
theorem splitText_concat_witness :
    [['h', ' ', 'i']].flatten = normalize ['h', ' ', 'i'] ∧
    ([((0 : Nat), ['h', ' ', 'i'])]).Chain' (fun a b => b.1 = entryEnd a) :=
  ⟨(splitText_concat_exact 6 ['h', ' ', 'i']).1 [['h', ' ', 'i']] (by decide),
   (splitText_concat_exact 6 ['h', ' ', 'i']).2 [(0, ['h', ' ', 'i'])] (by decide)⟩

/-! ## Concrete evaluations of split_text on long inputs

The two inputs of interest are a thousand letters with no space, and a run
of 700 letters followed by one space and a run of 1000 letters. Both are
too long for kernel evaluation, so the runs are handled symbolically. -/

/-- Input on which the split loop stops advancing: after the first chunk is
trimmed at offset 700, the window starting at the space contains no further
space, rfind returns 0, and the cursor stays at 700 forever. -/
def badText : List Char := List.replicate 700 'a' ++ ' ' :: List.replicate 1000 'b'

lemma rfindSpace_replicate {c : Char} (hc : ¬ c = ' ') (n : Nat) :
    rfindSpace (List.replicate n c) = none := by
  induction n with
  | zero => rfl
  | succ k ih => simp [List.replicate_succ, rfindSpace, ih, hc]

lemma rfindSpace_cons (c : Char) (l : List Char) :
    rfindSpace (c :: l) =
      match rfindSpace l with
      | some i => some (i + 1)
      | none => if c = ' ' then some 0 else none := rfl

lemma rfindSpace_append (l r : List Char) :
    rfindSpace (l ++ r) =
      match rfindSpace r with
      | some i => some (l.length + i)
      | none => rfindSpace l := by
  induction l with
  | nil =>
    cases hr : rfindSpace r with
    | some i => simp [hr]
    | none => simp [hr, rfindSpace]
  | cons c l ih =>
    cases hr : rfindSpace r with
    | some i =>
      have hlr : rfindSpace (l ++ r) = some (l.length + i) := by rw [ih, hr]
      rw [List.cons_append, rfindSpace_cons, hlr]
      show some (l.length + i + 1) = some ((c :: l).length + i)
      rw [List.length_cons]
      exact congrArg some (by omega)
    | none =>
      have hlr : rfindSpace (l ++ r) = rfindSpace l := by rw [ih, hr]
      rw [List.cons_append, rfindSpace_cons, hlr]
      rfl

lemma rfindSpace_space_rep (n : Nat) :
    rfindSpace (' ' :: List.replicate n 'b') = some 0 := by
  rw [rfindSpace_cons, rfindSpace_replicate (c := 'b') (by decide) n]
  rfl

lemma replicate_snoc (n : Nat) (c : Char) :
    List.replicate n c ++ [c] = List.replicate (n + 1) c := by
  induction n with
  | zero => rfl
  | succ k ih => simp [List.replicate_succ, ih]

lemma pySplitAux_cons_false {c : Char} (hc : isPyWhite c = false)
    (r acc : List Char) : pySplitAux (c :: r) acc = pySplitAux r (c :: acc) := by
  simp [pySplitAux, hc]

lemma pySplitAux_replicate {c : Char} (hc : isPyWhite c = false) (r : List Char) :
    ∀ n acc, pySplitAux (List.replicate n c ++ r) acc =
      pySplitAux r (List.replicate n c ++ acc) := by
  intro n
  induction n with
  | zero =>
    intro acc
    simp
  | succ k ih =>
    intro acc
    rw [List.replicate_succ, List.cons_append, pySplitAux_cons_false hc,
      ih (c :: acc)]
    congr 1
    rw [show List.replicate k c ++ c :: acc = (List.replicate k c ++ [c]) ++ acc by
        simp, replicate_snoc, List.replicate_succ, List.cons_append]

lemma pySplitAux_nil_ne {acc : List Char} (h : acc ≠ []) :
    pySplitAux [] acc = [acc.reverse] := by
  simp [pySplitAux, List.isEmpty_iff, h]

lemma pySplitAux_white_cons {c : Char} (hc : isPyWhite c = true) (r acc : List Char)
    (hacc : acc ≠ []) :
    pySplitAux (c :: r) acc = acc.reverse :: pySplitAux r [] := by
  simp [pySplitAux, hc, List.isEmpty_iff, hacc]

lemma pySplit_replicate {c : Char} (hc : isPyWhite c = false) (n : Nat) (hn : 0 < n) :
    pySplit (List.replicate n c) = [List.replicate n c] := by
  unfold pySplit
  have h1 := pySplitAux_replicate hc [] n []
  simp only [List.append_nil] at h1
  rw [h1, pySplitAux_nil_ne (List.ne_nil_of_length_pos (by simpa using hn)),
    List.reverse_replicate]

lemma pySplit_two_runs {c d : Char} (hc : isPyWhite c = false)
    (hd : isPyWhite d = false) (n m : Nat) (hn : 0 < n) (hm : 0 < m) :
    pySplit (List.replicate n c ++ ' ' :: List.replicate m d) =
      [List.replicate n c, List.replicate m d] := by
  unfold pySplit
  rw [pySplitAux_replicate hc _ n []]
  simp only [List.append_nil]
  rw [pySplitAux_white_cons (by decide) _ _
    (List.ne_nil_of_length_pos (by simpa using hn)), List.reverse_replicate]
  have h2 := pySplitAux_replicate hd [] m []
  simp only [List.append_nil] at h2
  rw [h2, pySplitAux_nil_ne (List.ne_nil_of_length_pos (by simpa using hm)),
    List.reverse_replicate]

lemma intercalate_singleton (s x : List Char) : List.intercalate s [x] = x := by
  simp [List.intercalate]

lemma intercalate_pair (s x y : List Char) :
    List.intercalate s [x, y] = x ++ s ++ y := by
  simp [List.intercalate]

lemma dropWhile_cons_false {p : Char → Bool} {c : Char} (hc : p c = false)
    (r : List Char) : (c :: r).dropWhile p = c :: r := by
  simp [List.dropWhile_cons, hc]

lemma pyStrip_of_ends {l : List Char} (h1 : l.dropWhile isPyWhite = l)
    (h2 : l.reverse.dropWhile isPyWhite = l.reverse) : pyStrip l = l := by
  unfold pyStrip
  rw [h1, h2, List.reverse_reverse]

lemma pyStrip_replicate {c : Char} (hc : isPyWhite c = false) (n : Nat)
    (hn : 0 < n) : pyStrip (List.replicate n c) = List.replicate n c := by
  obtain ⟨k, rfl⟩ : ∃ k, n = k + 1 := ⟨n - 1, by omega⟩
  apply pyStrip_of_ends
  · rw [List.replicate_succ]
    exact dropWhile_cons_false hc _
  · rw [List.reverse_replicate, List.replicate_succ]
    exact dropWhile_cons_false hc _

lemma badText_eq_cons :
    badText = 'a' :: (List.replicate 699 'a' ++ ' ' :: List.replicate 1000 'b') := by
  unfold badText
  rw [show (700 : Nat) = 699 + 1 by norm_num, List.replicate_succ, List.cons_append]

lemma badText_reverse :
    badText.reverse = 'b' :: (List.replicate 999 'b' ++ ' ' :: List.replicate 700 'a') := by
  unfold badText
  rw [List.reverse_append, List.reverse_cons, List.reverse_replicate,
    List.reverse_replicate, show (1000 : Nat) = 999 + 1 by norm_num,
    List.replicate_succ, List.cons_append, List.cons_append, List.append_assoc,
    List.singleton_append]

lemma pyStrip_badText : pyStrip badText = badText := by
  apply pyStrip_of_ends
  · rw [badText_eq_cons]
    exact dropWhile_cons_false (by decide) _
  · rw [badText_reverse]
    exact dropWhile_cons_false (by decide) _

lemma normalize_badText : normalize badText = badText := by
  unfold normalize
  rw [pyStrip_badText]
  unfold badText
  rw [pySplit_two_runs (by decide) (by decide) 700 1000 (by omega) (by omega),
    intercalate_pair, List.append_assoc, List.singleton_append]

lemma normalize_rep1000 :
    normalize (List.replicate 1000 'a') = List.replicate 1000 'a' := by
  unfold normalize
  rw [pyStrip_replicate (by decide) 1000 (by omega),
    pySplit_replicate (by decide) 1000 (by omega), intercalate_singleton]

lemma badText_length : badText.length = 1701 := by
  unfold badText
  rw [List.length_append, List.length_cons, List.length_replicate,
    List.length_replicate]

lemma take_run_left {c : Char} (n : Nat) (r : List Char) :
    (List.replicate n c ++ r).take n = List.replicate n c := by
  rw [List.take_append_eq_append_take, List.take_replicate, List.length_replicate,
    Nat.min_self, Nat.sub_self, List.take_zero, List.append_nil]

lemma take800_badText :
    badText.take 800 = List.replicate 700 'a' ++ ' ' :: List.replicate 99 'b' := by
  unfold badText
  rw [List.take_append_eq_append_take, List.take_replicate, List.length_replicate,
    show (800 : Nat) ⊓ 700 = 700 by norm_num,
    show (800 : Nat) - 700 = 100 by norm_num,
    show (100 : Nat) = 99 + 1 by norm_num, List.take_succ_cons,
    List.take_replicate, show (99 : Nat) ⊓ 1000 = 99 by norm_num]

lemma drop700_badText : badText.drop 700 = ' ' :: List.replicate 1000 'b' := by
  unfold badText
  rw [List.drop_append_eq_append_drop, List.drop_replicate, List.length_replicate]
  norm_num

lemma take800_space_rep :
    (' ' :: List.replicate 1000 'b').take 800 = ' ' :: List.replicate 799 'b' := by
  rw [show (800 : Nat) = 799 + 1 by norm_num, List.take_succ_cons,
    List.take_replicate, show (799 : Nat) ⊓ 1000 = 799 by norm_num]

lemma rfind_take800_badText : rfindSpace (badText.take 800) = some 700 := by
  rw [take800_badText, rfindSpace_append, rfindSpace_space_rep]
  show some ((List.replicate 700 'a').length + 0) = some 700
  rw [List.length_replicate]

lemma step_badText_0 :
    splitStep 800 100 badText 0 = (List.replicate 700 'a', 700, 700) := by
  rcases splitStep_cases 800 100 badText 0 with
    ⟨hge, _⟩ | ⟨_, hrf, _⟩ | ⟨i, _, hrf, hst⟩
  · rw [badText_length] at hge
    omega
  · rw [List.drop_zero, rfind_take800_badText] at hrf
    cases hrf
  · rw [List.drop_zero, rfind_take800_badText] at hrf
    cases hrf
    rw [hst, List.drop_zero, take800_badText, take_run_left]


lemma step_badText_700 : (splitStep 800 100 badText 700).2.2 = 700 := by
  rcases splitStep_cases 800 100 badText 700 with
    ⟨hge, _⟩ | ⟨_, hrf, _⟩ | ⟨i, _, hrf, hst⟩
  · rw [badText_length] at hge
    omega
  · rw [drop700_badText, take800_space_rep, rfindSpace_space_rep] at hrf
    cases hrf
  · rw [drop700_badText, take800_space_rep, rfindSpace_space_rep] at hrf
    cases hrf
    rw [hst]

lemma step_rep1000_0 :
    splitStep 800 100 (List.replicate 1000 'a') 0 =
      (List.replicate 800 'a', 800, 800) := by
  rcases splitStep_cases 800 100 (List.replicate 1000 'a') 0 with
    ⟨hge, _⟩ | ⟨_, hrf, hst⟩ | ⟨i, _, hrf, _⟩
  · rw [List.length_replicate] at hge
    omega
  · rw [hst, List.drop_zero, List.take_replicate,
      show (800 : Nat) ⊓ 1000 = 800 by norm_num]
  · rw [List.drop_zero, List.take_replicate,
      rfindSpace_replicate (by decide)] at hrf
    cases hrf

lemma step_rep1000_800 :
    splitStep 800 100 (List.replicate 1000 'a') 800 =
      (List.replicate 200 'a', 1600, 1600) := by
  rcases splitStep_cases 800 100 (List.replicate 1000 'a') 800 with
    ⟨hge, hst⟩ | ⟨hlt2, _, _⟩ | ⟨i, hlt2, _, _⟩
  · rw [hst, List.drop_replicate, List.take_replicate,
      show (1000 : Nat) - 800 = 200 by norm_num,
      show (800 : Nat) ⊓ 200 = 200 by norm_num]
  · rw [List.length_replicate] at hlt2
    omega
  · rw [List.length_replicate] at hlt2
    omega

lemma splitEntries_rep1000 :
    splitEntriesGen CHUNK_SIZE CHUNK_OVERLAP 3 (List.replicate 1000 'a') =
      some [(0, List.replicate 800 'a'), (800, List.replicate 200 'a')] := by
  simp only [splitEntriesGen, normalize_rep1000, CHUNK_SIZE, CHUNK_OVERLAP]
  rw [if_neg (by
    simp only [List.isEmpty_iff]
    exact List.ne_nil_of_length_pos (by rw [List.length_replicate]; omega))]
  have h0 : (0 : Nat) < (List.replicate 1000 'a').length := by
    rw [List.length_replicate]
    omega
  have h800 : (800 : Nat) < (List.replicate 1000 'a').length := by
    rw [List.length_replicate]
    omega
  have h1600 : ¬ (1600 : Nat) < (List.replicate 1000 'a').length := by
    rw [List.length_replicate]
    omega
  rw [show (3 : Nat) = 2 + 1 by norm_num, splitLoop_succ_lt h0, step_rep1000_0]
  rw [show (2 : Nat) = 1 + 1 by norm_num, splitLoop_succ_lt h800, step_rep1000_800]
  rw [show (1 : Nat) = 0 + 1 by norm_num, splitLoop_succ_ge h1600]

/-- C1: counterexample. Under the configured parameters, the text of 1000
identical letters is split into two chunks whose overlap is 0, not
CHUNK_OVERLAP: the cursor is set to max (end - overlap) end, which always
equals end, so no overlap is ever produced. -/
theorem splitText_overlap_cex :
    splitEntriesGen CHUNK_SIZE CHUNK_OVERLAP 3 (List.replicate 1000 'a') =
      some [(0, List.replicate 800 'a'), (800, List.replicate 200 'a')] ∧
    consecutiveOverlap (0, List.replicate 800 'a') (800, List.replicate 200 'a') = 0 ∧
    CHUNK_OVERLAP = 100 := by
  refine ⟨splitEntries_rep1000, ?_, rfl⟩
  simp only [consecutiveOverlap, entryEnd, List.length_replicate]

/-- C3: split_text does not terminate on every input. On badText the first
window is trimmed to offset 700, the second window starts at the space at
offset 700 and is trimmed to length 0, so the cursor never advances: the
loop runs forever, which the fuel embedding expresses as returning none at
every fuel. -/
theorem splitText_diverges_on_badText : ∀ fuel, splitTextFuel fuel badText = none := by
  intro fuel
  have h700 : (700 : Nat) < badText.length := by
    rw [badText_length]
    omega
  have h0 : (0 : Nat) < badText.length := by
    rw [badText_length]
    omega
  have hnone := splitLoop_fix h700 step_badText_700
  simp only [splitTextFuel, splitTextGen, splitEntriesGen, normalize_badText,
    CHUNK_SIZE, CHUNK_OVERLAP]
  rw [if_neg (by
    simp only [List.isEmpty_iff]
    exact List.ne_nil_of_length_pos (by rw [badText_length]; omega))]
  cases fuel with
  | zero => rfl
  | succ f =>
    rw [splitLoop_succ_lt h0, step_badText_0]
    rw [show ((List.replicate 700 'a', 700, 700) : List Char × Nat × Nat).2.2 = 700
      from rfl, hnone f]
    rfl

/-! ## Payloads and ingestion -/

/-- Payload values: strings or integers. -/
inductive PVal where
  | s (v : List Char)
  | n (v : Nat)
deriving DecidableEq

/-- Payload built per chunk by ingest_files, lines 150 to 153 of
src/ingest_qdrant_cloud.py: only a title (the file name) and a content
key (the chunk text). -/
def cloudPayload (title content : List Char) : List (String × PVal) :=
  [("title", PVal.s title), ("content", PVal.s content)]

/-- Payload built per document by ingest_documents, lines 112 to 116 of
src/ingest_qdrant.py: the document text, a constant source marker, and the
1-based document index. -/
def localPayload (doc : List Char) (idx : Nat) : List (String × PVal) :=
  [("text", PVal.s doc), ("source", PVal.s "moedelo_reforma_2026_demo".toList),
   ("index", PVal.n idx)]

/-- The three lists accumulated by ingest_files and sent in the single
batched upsert: sequential integer ids, vectors, payloads. -/
structure CloudBatch (α : Type) where
  ids : List Nat
  vectors : List α
  payloads : List (List (String × PVal))
deriving DecidableEq

/-- Inner chunk loop of ingest_files, lines 142 to 155 of
src/ingest_qdrant_cloud.py: a failing embedding call (modelled as none) is
caught and the chunk skipped; a successful chunk appends id pid, its
vector and its payload, and increments pid. Returns the final pid and the
accumulated batch. -/
def embedChunks {α : Type} (embed : List Char → Option α) (title : List Char) :
    List (List Char) → Nat → Nat × CloudBatch α
  | [], pid => (pid, ⟨[], [], []⟩)
  | ch :: rest, pid =>
    match embed ch with
    | none => embedChunks embed title rest pid
    | some v =>
      let r := embedChunks embed title rest (pid + 1)
      (r.1, ⟨pid :: r.2.ids, v :: r.2.vectors,
        cloudPayload title ch :: r.2.payloads⟩)

/-- File loop of ingest_files, lines 131 to 164, abstracted over the file
list (name and raw text per file) and the embedding collaborator; none
when split_text exhausts its fuel on some file. -/
def ingestFilesAux {α : Type} (embed : List Char → Option α) (fuel : Nat) :
    List (List Char × List Char) → Nat → Option (CloudBatch α)
  | [], _ => some ⟨[], [], []⟩
  | (name, text) :: rest, pid =>
    match splitTextFuel fuel text with
    | none => none
    | some chunks =>
      let r := embedChunks embed name chunks pid
      match ingestFilesAux embed fuel rest r.1 with
      | none => none
      | some b => some ⟨r.2.ids ++ b.ids, r.2.vectors ++ b.vectors,
          r.2.payloads ++ b.payloads⟩

/-- ingest_files, lines 113 to 166 of src/ingest_qdrant_cloud.py: the point
id counter starts at 1. -/
def ingestFiles {α : Type} (embed : List Char → Option α) (fuel : Nat)
    (files : List (List Char × List Char)) : Option (CloudBatch α) :=
  ingestFilesAux embed fuel files 1

/-- ingest_documents of src/ingest_qdrant.py, lines 92 to 127: embeds every
document whole; the embedding call is not wrapped in any handler, so one
failure aborts the whole run (none) with nothing upserted. On success, one
point per document with payload localPayload and 1-based enumeration. -/
def ingestDocumentsAux {α : Type} (embed : List Char → Option α) :
    List (List Char) → Nat → Option (List (α × List (String × PVal)))
  | [], _ => some []
  | doc :: rest, idx =>
    match embed doc with
    | none => none
    | some v =>
      match ingestDocumentsAux embed rest (idx + 1) with
      | none => none
      | some ps => some ((v, localPayload doc idx) :: ps)

/-- ingest_documents: enumeration starts at 1. -/
def ingestDocuments {α : Type} (embed : List Char → Option α)
    (docs : List (List Char)) : Option (List (α × List (String × PVal))) :=
  ingestDocumentsAux embed docs 1

/-- The payload list that a successful local ingest run produces: one
localPayload per document, indices counting up from idx. -/
def localPayloads : List (List Char) → Nat → List (List (String × PVal))
  | [], _ => []
  | d :: rest, idx => localPayload d idx :: localPayloads rest (idx + 1)

lemma embedChunks_payload_keys {α : Type} (embed : List Char → Option α)
    (title : List Char) :
    ∀ chunks pid, ∀ p ∈ (embedChunks embed title chunks pid).2.payloads,
      p.map Prod.fst = ["title", "content"] := by
  intro chunks
  induction chunks with
  | nil =>
    intro pid p hp
    simp [embedChunks] at hp
  | cons ch rest ih =>
    intro pid p hp
    simp only [embedChunks] at hp
    cases hemb : embed ch with
    | none =>
      rw [hemb] at hp
      exact ih pid p hp
    | some v =>
      rw [hemb] at hp
      simp only [List.mem_cons] at hp
      rcases hp with h1 | h2
      · subst h1
        rfl
      · exact ih (pid + 1) p h2

lemma ingestFilesAux_payload_keys {α : Type} (embed : List Char → Option α)
    (fuel : Nat) :
    ∀ files pid B, ingestFilesAux embed fuel files pid = some B →
      ∀ p ∈ B.payloads, p.map Prod.fst = ["title", "content"] := by
  intro files
  induction files with
  | nil =>
    intro pid B h p hp
    cases h
    simp at hp
  | cons f rest ih =>
    intro pid B h p hp
    obtain ⟨name, text⟩ := f
    simp only [ingestFilesAux] at h
    split at h
    · cases h
    · rename_i chunks hs
      split at h
      · cases h
      · rename_i b hrec
        cases h
        rcases List.mem_append.mp hp with h1 | h2
        · exact embedChunks_payload_keys embed name chunks pid p h1
        · exact ih _ b hrec p h2

lemma ingestDocumentsAux_payloads {α : Type} (embed : List Char → Option α) :
    ∀ docs idx P, ingestDocumentsAux embed docs idx = some P →
      P.map Prod.snd = localPayloads docs idx := by
  intro docs
  induction docs with
  | nil =>
    intro idx P h
    cases h
    rfl
  | cons doc rest ih =>
    intro idx P h
    simp only [ingestDocumentsAux] at h
    split at h
    · cases h
    · rename_i v hemb
      split at h
      · cases h
      · rename_i ps hrec
        cases h
        simp only [List.map_cons, localPayloads]
        rw [ih (idx + 1) ps hrec]

/-- C5 counterexample: a concrete cloud ingest run stores a payload whose
keys are title and content only: there is no source key and no index key,
so the payload is not the claimed record of four fields. -/
theorem ingest_payload_cex :
    ingestFiles (fun _ => some 0) 2 [("a.txt".toList, "hello world".toList)] =
      some ⟨[1], [0], [[("title", PVal.s "a.txt".toList),
        ("content", PVal.s "hello world".toList)]]⟩ ∧
    "source" ∉ (cloudPayload "a.txt".toList "hello world".toList).map Prod.fst ∧
    "index" ∉ (cloudPayload "a.txt".toList "hello world".toList).map Prod.fst := by
  exact ⟨by decide, by decide, by decide⟩

/-- C5 amended: the cloud ingest stores per chunk exactly the keys title
and content (no source, no index); the local ingest stores per document
exactly localPayload, that is keys text, source and index with index the
1-based position of the document in the batch. -/
theorem ingest_payload_shape :
    (∀ (embed : List Char → Option Nat) fuel files B,
      ingestFiles embed fuel files = some B →
      ∀ p ∈ B.payloads, p.map Prod.fst = ["title", "content"]) ∧
    (∀ (embed : List Char → Option Nat) docs P,
      ingestDocuments embed docs = some P →
      P.map Prod.snd = localPayloads docs 1) ∧
    (∀ doc idx, (localPayload doc idx).map Prod.fst = ["text", "source", "index"] ∧
      (localPayload doc idx).lookup "index" = some (PVal.n idx)) := by
  refine ⟨?_, ?_, ?_⟩
  · intro embed fuel files B h p hp
    exact ingestFilesAux_payload_keys embed fuel files 1 B h p hp
  · intro embed docs P h
    exact ingestDocumentsAux_payloads embed docs 1 P h
  · intro doc idx
    constructor
    · rfl
    · rfl

/-- Witness for ingest_payload_shape at a concrete run of each variant. -/
theorem ingest_payload_shape_witness :
    (∀ p ∈ (CloudBatch.mk [1] [0] [[("title", PVal.s "a.txt".toList),
        ("content", PVal.s "hello world".toList)]]).payloads,
      p.map Prod.fst = ["title", "content"]) ∧
    [((0 : Nat), localPayload "x".toList 1)].map Prod.snd =
      localPayloads ["x".toList] 1 :=
  ⟨ingest_payload_shape.1 (fun _ => some 0) 2
      [("a.txt".toList, "hello world".toList)] _ (by decide),
   ingest_payload_shape.2.1 (fun _ => some 0) ["x".toList]
      [(0, localPayload "x".toList 1)] (by decide)⟩

/-- Concrete embedding collaborator that fails deterministically on the
document d5 and succeeds elsewhere. -/
def failOn5 (d : List Char) : Option Nat :=
  if d = "d5".toList then none else some 0

/-- Ten one-word files for the partial-failure scenario. -/
def tenFiles : List (List Char × List Char) :=
  [("f1".toList, "d1".toList), ("f2".toList, "d2".toList),
   ("f3".toList, "d3".toList), ("f4".toList, "d4".toList),
   ("f5".toList, "d5".toList), ("f6".toList, "d6".toList),
   ("f7".toList, "d7".toList), ("f8".toList, "d8".toList),
   ("f9".toList, "d9".toList), ("f10".toList, "d10".toList)]

/-- The same ten one-word documents for the local variant. -/
def tenDocs : List (List Char) :=
  ["d1".toList, "d2".toList, "d3".toList, "d4".toList, "d5".toList,
   "d6".toList, "d7".toList, "d8".toList, "d9".toList, "d10".toList]

lemma ingestDocumentsAux_abort {α : Type} (embed : List Char → Option α) :
    ∀ docs idx, (∃ d ∈ docs, embed d = none) →
      ingestDocumentsAux embed docs idx = none := by
  intro docs
  induction docs with
  | nil =>
    intro idx h
    rcases h with ⟨d, hd, _⟩
    simp at hd
  | cons doc rest ih =>
    intro idx h
    simp only [ingestDocumentsAux]
    cases hemb : embed doc with
    | none => rfl
    | some v =>
      rcases h with ⟨d, hd, hde⟩
      rcases List.mem_cons.mp hd with h1 | h2
      · subst h1
        rw [hemb] at hde
        cases hde
      · rw [ih (idx + 1) ⟨d, h2, hde⟩]

lemma ingestFilesAux_total {α : Type} (embed : List Char → Option α)
    (fuel : Nat) :
    ∀ files pid, (∀ f ∈ files, (splitTextFuel fuel f.2).isSome = true) →
      (ingestFilesAux embed fuel files pid).isSome = true := by
  intro files
  induction files with
  | nil =>
    intro pid _
    rfl
  | cons f rest ih =>
    intro pid h
    obtain ⟨name, text⟩ := f
    simp only [ingestFilesAux]
    cases hs : splitTextFuel fuel text with
    | none =>
      have := h (name, text) (by simp)
      rw [hs] at this
      cases this
    | some chunks =>
      have hrest := ih (embedChunks embed name chunks pid).1
        (fun g hg => h g (List.mem_cons_of_mem _ hg))
      cases hrec : ingestFilesAux embed fuel rest
          (embedChunks embed name chunks pid).1 with
      | none =>
        rw [hrec] at hrest
        cases hrest
      | some b => simp [hrec]

/-- C8 counterexample: in ingest_documents a single failing embedding call
aborts the whole run. Ten documents with a deterministic failure on the
fifth yield no batch at all, not nine written points and one skip. -/
theorem ingest_abort_cex : ingestDocuments failOn5 tenDocs = none := by
  decide

/-- C8 amended: the cloud ingest_files tolerates per-chunk embedding
failures: it always completes when split_text terminates, and in the
ten-file scenario with one deterministic failure it writes exactly nine
points; the local ingest_documents aborts the whole run as soon as one
embedding call fails. -/
theorem ingest_partial_failure :
    (∀ (embed : List Char → Option Nat) fuel files,
      (∀ f ∈ files, (splitTextFuel fuel f.2).isSome = true) →
      (ingestFiles embed fuel files).isSome = true) ∧
    ((ingestFiles failOn5 2 tenFiles).map CloudBatch.ids =
      some [1, 2, 3, 4, 5, 6, 7, 8, 9]) ∧
    (∀ (embed : List Char → Option Nat) docs,
      (∃ d ∈ docs, embed d = none) → ingestDocuments embed docs = none) := by
  refine ⟨?_, by decide, ?_⟩
  · intro embed fuel files h
    exact ingestFilesAux_total embed fuel files 1 h
  · intro embed docs h
    exact ingestDocumentsAux_abort embed docs 1 h

/-- Witness for ingest_partial_failure at concrete runs. -/
theorem ingest_partial_failure_witness :
    (ingestFiles (fun _ => (none : Option Nat)) 2
      [("a".toList, "xy".toList)]).isSome = true ∧
    ingestDocuments (fun _ => (none : Option Nat)) ["x".toList] = none :=
  ⟨ingest_partial_failure.1 (fun _ => none) 2 [("a".toList, "xy".toList)]
      (by decide),
   ingest_partial_failure.2.2 (fun _ => none) ["x".toList]
      ⟨"x".toList, by decide, rfl⟩⟩

/-! ## Collection management -/

/-- Shape of the vectors configuration carried by the fetched collection
metadata: a single unnamed vector setting with a size attribute, a mapping
of named vector settings, or anything else (no size found). -/
inductive VectorsInfo where
  | single (size : Nat)
  | named (m : List (String × Nat))
  | other
deriving DecidableEq

/-- Lines 83 to 89 of src/ingest_qdrant_cloud.py: the size attribute when
present, else the size of the first named entry, else nothing. -/
def extractSize : VectorsInfo → Option Nat
  | .single d => some d
  | .named m => (m.map Prod.snd).head?
  | .other => none

/-- Outcome of the metadata fetch: success, an UnexpectedResponse carrying
a status code, or an exception of any other class (network, auth). -/
inductive FetchOutcome where
  | ok (info : VectorsInfo)
  | unexpectedResponse (status : Nat)
  | otherError
deriving DecidableEq

/-- Mutations of the vector store. -/
inductive StoreAction where
  | create (dim : Nat)
  | delete
  | recreate (dim : Nat)
deriving DecidableEq

/-- How a call to ensure_collection ends: normally, recording whether the
dimension-mismatch warning was printed, or by raising. -/
inductive EnsureOutcome where
  | completed (warned : Bool)
  | raised
deriving DecidableEq

/-- ensure_collection of src/ingest_qdrant_cloud.py, lines 80 to 108: on a
fetched collection warn iff the extracted size differs from EMBEDDING_DIM
and change nothing; on UnexpectedResponse with status 404 create the
collection; any other status is re-raised, and exceptions of other classes
are not caught at all. -/
def cloudEnsure : FetchOutcome → List StoreAction × EnsureOutcome
  | .ok info => ([], .completed (extractSize info != some EMBEDDING_DIM))
  | .unexpectedResponse status =>
    if status = 404 then ([.create EMBEDDING_DIM], .completed false)
    else ([], .raised)
  | .otherError => ([], .raised)

/-- ensure_collection of src/ingest_qdrant.py, lines 72 to 89: the fetch is
wrapped in a bare except clause, so every failure whatsoever is treated as
the collection being absent and triggers creation. -/
def localEnsure : FetchOutcome → List StoreAction × EnsureOutcome
  | .ok _ => ([], .completed false)
  | .unexpectedResponse _ => ([.create EMBEDDING_DIM], .completed false)
  | .otherError => ([.create EMBEDDING_DIM], .completed false)

/-- main of src/create_collection_moedelo.py, lines 17 to 39: the one-shot
administrative script unconditionally recreates the collection with
dimension 1536. -/
def createCollectionMain : List StoreAction := [.recreate EMBEDDING_DIM]

/-- Modelled from the spec: the vector-store collaborator of section 6,
reduced to the one observable ensure_collection reads, the dimension of
the collection when it exists. Fetching from an absent collection yields
the 404 UnexpectedResponse. -/
def fetchFrom : Option Nat → FetchOutcome
  | none => .unexpectedResponse 404
  | some d => .ok (.single d)

/-- Modelled from the spec: effect of one store mutation on the collection
state. -/
def applyAction (_ : Option Nat) : StoreAction → Option Nat
  | .create d => some d
  | .recreate d => some d
  | .delete => none

/-- One call of the cloud ensure_collection against a store in state st:
the new store state and the actions performed. -/
def ensureStep (st : Option Nat) : Option Nat × List StoreAction :=
  ((cloudEnsure (fetchFrom st)).1.foldl applyAction st,
   (cloudEnsure (fetchFrom st)).1)

/-- C6 counterexample: the local ensure_collection reacts to a non-404
failure (a network or auth error) by creating the collection and
completing, instead of letting the failure propagate. -/
theorem ensure_conflate_cex :
    localEnsure .otherError =
      ([StoreAction.create EMBEDDING_DIM], .completed false) ∧
    localEnsure .otherError ≠ ([], .raised) := by
  exact ⟨rfl, by decide⟩

/-- C6 amended: the cloud ensure_collection distinguishes not-found from
every other failure: exactly the 404 outcome creates, any other status or
any other exception propagates; the local ensure_collection instead treats
every failure as absence and creates. -/
theorem ensure_not_found_distinguished :
    cloudEnsure (.unexpectedResponse 404) =
      ([.create EMBEDDING_DIM], .completed false) ∧
    (∀ s, s ≠ 404 → cloudEnsure (.unexpectedResponse s) = ([], .raised)) ∧
    cloudEnsure .otherError = ([], .raised) ∧
    (∀ info, (cloudEnsure (.ok info)).1 = []) ∧
    (∀ o, (localEnsure o).2 ≠ .raised) ∧
    (localEnsure .otherError).1 = [.create EMBEDDING_DIM] := by
  refine ⟨rfl, ?_, rfl, fun info => rfl, ?_, rfl⟩
  · intro s hs
    simp [cloudEnsure, hs]
  · intro o
    cases o <;> simp [localEnsure]

/-- Witness for ensure_not_found_distinguished at a concrete status. -/
theorem ensure_not_found_witness :
    cloudEnsure (.unexpectedResponse 500) = ([], .raised) :=
  ensure_not_found_distinguished.2.1 500 (by decide)

/-- C7: ensure_collection is idempotent and non-destructive: it never
deletes or recreates, a fetch that finds the collection performs no store
action at all (warning only on dimension mismatch), a second call after
any first call performs no action, and destructive recreation exists only
in the separate administrative script. -/
theorem ensure_idempotent_nondestructive :
    (∀ o, StoreAction.delete ∉ (cloudEnsure o).1 ∧
      ∀ d, StoreAction.recreate d ∉ (cloudEnsure o).1) ∧
    (∀ info, extractSize info = some EMBEDDING_DIM →
      cloudEnsure (.ok info) = ([], .completed false)) ∧
    (∀ info, extractSize info ≠ some EMBEDDING_DIM →
      cloudEnsure (.ok info) = ([], .completed true)) ∧
    (∀ st, (ensureStep (ensureStep st).1).2 = []) ∧
    createCollectionMain = [StoreAction.recreate EMBEDDING_DIM] := by
  refine ⟨?_, ?_, ?_, ?_, rfl⟩
  · intro o
    cases o with
    | ok info => simp [cloudEnsure]
    | unexpectedResponse s =>
      by_cases hs : s = 404 <;> simp [cloudEnsure, hs]
    | otherError => simp [cloudEnsure]
  · intro info h
    simp [cloudEnsure, h]
  · intro info h
    simp [cloudEnsure, bne_iff_ne, h]
  · intro st
    cases st with
    | none => rfl
    | some d => rfl

/-- Witness for ensure_idempotent_nondestructive at concrete metadata. -/
theorem ensure_idempotent_witness :
    cloudEnsure (.ok (.single 1536)) = ([], .completed false) ∧
    cloudEnsure (.ok (.single 512)) = ([], .completed true) :=
  ⟨ensure_idempotent_nondestructive.2.1 (.single 1536) (by decide),
   ensure_idempotent_nondestructive.2.2.1 (.single 512) (by decide)⟩

/-! ## Retrieval, from src/demo_app.py (search_qdrant, lines 65 to 99) -/

/-- A scored point as returned by query_points: a score of abstract type
and an optional payload. -/
structure ScoredPoint (σ : Type) where
  score : σ
  payload : Option (List (String × PVal))

/-- Python str of a payload value, as interpolated into the context pieces
and the debug lines. -/
def pvalStr : PVal → String
  | .s v => String.mk v
  | .n v => toString v

/-- payload.get(key, "") followed by string interpolation. -/
def payloadGetStr (pl : List (String × PVal)) (key : String) : String :=
  match pl.lookup key with
  | some v => pvalStr v
  | none => ""

/-- Lines 79 to 99 of src/demo_app.py, after the query has been embedded
and searched: zero points yield the empty context and the fixed no-results
trace; otherwise one numbered context piece per point joined by the
visible separator, and one debug line per point. fmtScore renders the
floating-point score at fixed precision. -/
def searchAssemble {σ : Type} (fmtScore : σ → String)
    (points : List (ScoredPoint σ)) : String × String :=
  if points.isEmpty then ("", "Ничего не найдено в коллекции.")
  else
    let items := points.enum.map (fun ip =>
      let pl := ip.2.payload.getD []
      let title := payloadGetStr pl "title"
      let content := payloadGetStr pl "content"
      ("[" ++ toString (ip.1 + 1) ++ "] " ++ title ++ "\n" ++ content,
       toString (ip.1 + 1) ++ ") score=" ++ fmtScore ip.2.score ++
         ", title=" ++ title))
    (String.intercalate "\n\n---\n\n" (items.map Prod.fst),
     "Найденные фрагменты:\n" ++ String.intercalate "\n" (items.map Prod.snd))

/-- search_qdrant composed with its collaborators: embed the query, run
the nearest-neighbor search, assemble context and trace. -/
def searchQdrant {α σ : Type} (fmtScore : σ → String) (embedq : String → α)
    (queryPoints : α → List (ScoredPoint σ)) (queryText : String) :
    String × String :=
  searchAssemble fmtScore (queryPoints (embedq queryText))

/-- C9: for every query whose nearest-neighbor search returns zero points,
retrieval returns the empty context together with the fixed trace saying
nothing was found in the collection, and it does not raise: searchQdrant
is a total function. -/
theorem search_empty_result {α σ : Type} (fmtScore : σ → String)
    (embedq : String → α) (queryPoints : α → List (ScoredPoint σ))
    (q : String) (h : queryPoints (embedq q) = []) :
    searchQdrant fmtScore embedq queryPoints q =
      ("", "Ничего не найдено в коллекции.") := by
  simp [searchQdrant, searchAssemble, h]

/-- Witness for search_empty_result against an empty collection. -/
theorem search_empty_result_witness :
    searchQdrant (fun _ : Unit => "") (fun _ => ()) (fun _ => []) "q" =
      ("", "Ничего не найдено в коллекции.") :=
  search_empty_result (fun _ => "") (fun _ => ()) (fun _ => []) "q" rfl

end Moedelo
